import Mathlib

/-!
A shallow embedding of the core of `src/main.rs` (the `depr` tool): spec-region
extraction from a lock file's lines, the overlap/clipping logic that correlates
blame hunks with spec regions, the time-tier formatter, and the event pipeline
of `run`.  Definitions are translated directly from the Rust source; theorems
below settle the specification claims about them.
-/

namespace Depr

/-- Models Rust `str::contains` restricted to what the source needs:
`charsBeginWith pat cs` is true when `pat` is an initial segment of `cs`. -/
def charsBeginWith : List Char → List Char → Bool
  | [], _ => true
  | _ :: _, [] => false
  | p :: ps, c :: cs => p == c && charsBeginWith ps cs

/-- `charsContain pat cs` is true when `pat` occurs as a contiguous
subsequence of `cs`; this is the substring test of Rust `str::contains`. -/
def charsContain (pat : List Char) : List Char → Bool
  | [] => charsBeginWith pat []
  | c :: cs => charsBeginWith pat (c :: cs) || charsContain pat cs

/-- The marker test of `AllSpecs::from_lines`: `line.contains("specs:")`. -/
def lineHasMarker (line : String) : Bool :=
  charsContain "specs:".toList line.toList

/-- The `Specs` struct of `main.rs`: one spec region, with `start_line`
the first line after the marker and `end_line` the index of the
terminating blank line (content is the half-open slice). -/
structure Specs where
  start_line : Nat
  end_line : Nat
deriving DecidableEq, Repr

/-- `Specs::overlaps` from `main.rs` lines 38-46: the hunk range
`(startLine, endLine)` misses the region only when it starts after
`end_line` or ends before `start_line`. -/
def Specs.overlaps (sp : Specs) (startLine endLine : Nat) : Bool :=
  if startLine > sp.end_line then false
  else if endLine < sp.start_line then false
  else true

/-- `Specs::hunk_limits` from `main.rs` lines 48-52: clip the hunk range
to the region. -/
def Specs.hunk_limits (sp : Specs) (startLine endLine : Nat) : Nat × Nat :=
  (max sp.start_line startLine, min sp.end_line endLine)

/-- The `AllSpecs` struct: the ordered collection of extracted regions. -/
structure AllSpecs where
  specs : List Specs
deriving DecidableEq, Repr

/-- The loop body state of `AllSpecs::from_lines`: `i` is the index of the
first line of `lines` in the original file, `pending` is the Rust
`start_line : Option<usize>` variable.  A marker line sets `pending` to the
next index; a blank line with a pending start emits a region ending at the
blank line and clears the pending start. -/
def fromLinesAux : List String → Nat → Option Nat → List Specs
  | [], _, _ => []
  | line :: rest, i, pending =>
    let p := if lineHasMarker line then some (i + 1) else pending
    if line = "" then
      match p with
      | some s => ⟨s, i⟩ :: fromLinesAux rest (i + 1) none
      | none => fromLinesAux rest (i + 1) none
    else
      fromLinesAux rest (i + 1) p

/-- `AllSpecs::from_lines` from `main.rs` lines 60-77. -/
def AllSpecs.from_lines (lines : List String) : AllSpecs :=
  ⟨fromLinesAux lines 0 none⟩

/-- `AllSpecs::overlaps` from `main.rs` lines 79-83. -/
def AllSpecs.overlaps (all : AllSpecs) (startLine endLine : Nat) : Bool :=
  all.specs.any (fun sp => sp.overlaps startLine endLine)

/-- `AllSpecs::hunk_limits` from `main.rs` lines 85-96: the loop starts from
`(0, 0)` and overwrites the accumulator with the clip of every overlapping
region, so the last overlapping region in file order wins. -/
def AllSpecs.hunk_limits (all : AllSpecs) (startLine endLine : Nat) : Nat × Nat :=
  all.specs.foldl
    (fun acc sp =>
      if sp.overlaps startLine endLine then sp.hunk_limits startLine endLine
      else acc)
    (0, 0)

/-- A blame hunk as consumed by `run`: `final_start_line()` (1-indexed),
`lines_in_hunk()`, and the commit's `git2::Time` from
`final_signature().when()`, carried as its two compared components:
the timestamp in epoch seconds (`seconds()`) and the timezone offset in
minutes (`offset_minutes()`). -/
structure Hunk where
  finalStartLine : Nat
  linesInHunk : Nat
  seconds : Int
  offsetMinutes : Int
deriving DecidableEq, Repr

/-- The sort key used by `run`'s `hunks.sort_by(|a, b|
a.final_signature().when().cmp(&b.final_signature().when()))`:
`git2::Time`'s `Ord` compares the pair (seconds, timezone offset in
minutes) lexicographically, seconds first. -/
def Hunk.timeKey (h : Hunk) : Lex (Int × Int) :=
  toLex (h.seconds, h.offsetMinutes)

/-- Stable insertion of `x` into a list already sorted on `key`:
`x` goes in front of the first element whose key is not smaller,
so ties keep the incoming element first. -/
def insertSorted [LinearOrder β] (key : α → β) (x : α) : List α → List α
  | [] => [x]
  | y :: ys => if key x ≤ key y then x :: y :: ys else y :: insertSorted key x ys

/-- Models Rust `Vec::sort_by` with a total comparator given by a key into
a linear order: `sort_by` is a stable sort, and a stable sort on a total
key is extensionally the stable insertion sort. -/
def sortByKey [LinearOrder β] (key : α → β) : List α → List α
  | [] => []
  | x :: xs => insertSorted key x (sortByKey key xs)

/-- One rendered output block of `run`'s loop body: the timestamp behind the
header line, the clipped range from `AllSpecs::hunk_limits`, the pair of
numbers printed by `println!("Lines {} through {}.", start + 1, end)`, and
the content slice `gemfile_lock_lines[start..end]`. -/
structure Event where
  seconds : Int
  clipStart : Nat
  clipEnd : Nat
  shownRange : Nat × Nat
  content : List String
deriving DecidableEq, Repr

/-- The correlation-and-rendering pipeline of `run` (`main.rs` lines 112-130):
sort the hunks by `git2::Time`'s ordering on their commit times (the
lexicographic (seconds, timezone-offset) key `Hunk.timeKey`), and for each
hunk whose zero-indexed range
`[final_start_line - 1, final_start_line - 1 + lines_in_hunk)` passes
`AllSpecs::overlaps`, emit one output block built from
`AllSpecs::hunk_limits`.  Hunks failing the overlap test print nothing. -/
def runEvents (lines : List String) (hunks : List Hunk) : List Event :=
  let allSpecs := AllSpecs.from_lines lines
  (sortByKey Hunk.timeKey hunks).filterMap (fun h =>
    let s := h.finalStartLine - 1
    let e := s + h.linesInHunk
    if allSpecs.overlaps s e then
      let cl := allSpecs.hunk_limits s e
      some ⟨h.seconds, cl.1, cl.2, (cl.1 + 1, cl.2),
            (lines.drop cl.1).take (cl.2 - cl.1)⟩
    else none)

/-- `time_passed` from `main.rs` lines 135-154, with the elapsed duration
`now - then` in whole seconds passed explicitly.  `chrono::Duration`'s
`num_days`/`num_hours`/`num_minutes` divide the seconds by 86400/3600/60
with Rust `i64` division, which truncates toward zero (`Int.tdiv`). -/
def time_passed (elapsed : Int) : String :=
  let days := elapsed.tdiv 86400
  let hours := elapsed.tdiv 3600
  let minutes := elapsed.tdiv 60
  if days > 0 then toString days ++ " days ago"
  else if hours > 0 then toString hours ++ " hours ago"
  else if minutes > 0 then toString minutes ++ " minutes ago"
  else "just now"

/-- The overlap test in arithmetic form: a hunk range passes against a
region exactly when it does not start after the region's end and does not
end before the region's start. -/
theorem overlaps_iff (sp : Specs) (hs he : Nat) :
    sp.overlaps hs he = true ↔ (hs ≤ sp.end_line ∧ sp.start_line ≤ he) := by
  unfold Specs.overlaps
  split
  · simp only [Bool.false_eq_true, false_iff]
    omega
  · split
    · simp only [Bool.false_eq_true, false_iff]
      omega
    · simp only [true_iff]
      omega

/-- The overlap test fails exactly when the hunk range starts after the
region's end or ends before the region's start. -/
theorem overlaps_eq_false_iff (sp : Specs) (hs he : Nat) :
    sp.overlaps hs he = false ↔ (sp.end_line < hs ∨ he < sp.start_line) := by
  rw [← Bool.not_eq_true, overlaps_iff]
  omega

/-- The empty line does not contain the marker text. -/
theorem lineHasMarker_empty : lineHasMarker "" = false := rfl

/-- Extractor step on a blank line with a pending start: emit the region
and clear the pending start. -/
theorem fromLinesAux_blank_some (rest : List String) (i s : Nat) :
    fromLinesAux ("" :: rest) i (some s) =
      Specs.mk s i :: fromLinesAux rest (i + 1) none := rfl

/-- Extractor step on a blank line with no pending start: skip. -/
theorem fromLinesAux_blank_none (rest : List String) (i : Nat) :
    fromLinesAux ("" :: rest) i none = fromLinesAux rest (i + 1) none := rfl

/-- Extractor step on a marker line: the pending start is reset to the
next line's index. -/
theorem fromLinesAux_marker (line : String) (rest : List String) (i : Nat)
    (p : Option Nat) (hm : lineHasMarker line = true) :
    fromLinesAux (line :: rest) i p = fromLinesAux rest (i + 1) (some (i + 1)) := by
  have hb : ¬ line = "" := by
    intro h
    rw [h, lineHasMarker_empty] at hm
    exact Bool.noConfusion hm
  simp only [fromLinesAux, hm, if_true, if_neg hb]

/-- Extractor step on a non-blank non-marker line: the pending start is
carried through unchanged. -/
theorem fromLinesAux_plain (line : String) (rest : List String) (i : Nat)
    (p : Option Nat) (hm : lineHasMarker line = false) (hb : ¬ line = "") :
    fromLinesAux (line :: rest) i p = fromLinesAux rest (i + 1) p := by
  simp only [fromLinesAux, hm, Bool.false_eq_true, if_false, if_neg hb]

/-- Structural invariant of the extractor loop: when every pending start is
at most the current index, every emitted region is well-formed
(`start_line ≤ end_line`), ends at or after the current index, and starts
either at the pending start or strictly after the current index; moreover
the emitted regions are strictly separated in emission order. -/
theorem fromLinesAux_inv (lines : List String) :
    ∀ (i : Nat) (p : Option Nat), (∀ s, p = some s → s ≤ i) →
      (∀ r ∈ fromLinesAux lines i p,
        r.start_line ≤ r.end_line ∧ i ≤ r.end_line ∧
          (p = some r.start_line ∨ i + 1 ≤ r.start_line)) ∧
      (fromLinesAux lines i p).Pairwise
        (fun a b => a.end_line < b.start_line) := by
  induction lines with
  | nil => intro i p hp; simp [fromLinesAux]
  | cons line rest ih =>
    intro i p hp
    by_cases hb : line = ""
    · subst hb
      rcases p with _ | s
      · rw [fromLinesAux_blank_none]
        have h2 := ih (i + 1) none (by simp)
        refine ⟨fun r hr => ?_, h2.2⟩
        have h3 := h2.1 r hr
        rcases h3.2.2 with h4 | h4
        · exact absurd h4 (by simp)
        · exact ⟨h3.1, by omega, Or.inr (by omega)⟩
      · rw [fromLinesAux_blank_some]
        have h2 := ih (i + 1) none (by simp)
        have hs : s ≤ i := hp s rfl
        constructor
        · intro r hr
          rcases List.mem_cons.mp hr with hr | hr
          · subst hr
            exact ⟨hs, Nat.le_refl i, Or.inl rfl⟩
          · have h3 := h2.1 r hr
            rcases h3.2.2 with h4 | h4
            · exact absurd h4 (by simp)
            · exact ⟨h3.1, by omega, Or.inr (by omega)⟩
        · refine List.pairwise_cons.mpr ⟨fun r hr => ?_, h2.2⟩
          have h3 := h2.1 r hr
          rcases h3.2.2 with h4 | h4
          · exact absurd h4 (by simp)
          · show i < r.start_line
            omega
    · by_cases hm : lineHasMarker line = true
      · rw [fromLinesAux_marker line rest i p hm]
        have h2 := ih (i + 1) (some (i + 1))
          (by intro s h; injection h with h; omega)
        refine ⟨fun r hr => ?_, h2.2⟩
        have h3 := h2.1 r hr
        rcases h3.2.2 with h4 | h4
        · injection h4 with h4
          exact ⟨h3.1, by omega, Or.inr (by omega)⟩
        · exact ⟨h3.1, by omega, Or.inr (by omega)⟩
      · rw [fromLinesAux_plain line rest i p (by simpa using hm) hb]
        have h2 := ih (i + 1) p (by intro s h; have := hp s h; omega)
        refine ⟨fun r hr => ?_, h2.2⟩
        have h3 := h2.1 r hr
        rcases h3.2.2 with h4 | h4
        · exact ⟨h3.1, by omega, Or.inl h4⟩
        · exact ⟨h3.1, by omega, Or.inr (by omega)⟩

/-- C6: the regions extracted from any line sequence are pairwise
non-overlapping (under the program's own overlap test, in both directions)
and each satisfies `start_line ≤ end_line`. -/
theorem c6_regions_disjoint (lines : List String) :
    ((AllSpecs.from_lines lines).specs.Pairwise
      (fun a b => a.overlaps b.start_line b.end_line = false ∧
                  b.overlaps a.start_line a.end_line = false)) ∧
    ∀ r ∈ (AllSpecs.from_lines lines).specs, r.start_line ≤ r.end_line := by
  have h := fromLinesAux_inv lines 0 none (by simp)
  constructor
  · refine h.2.imp ?_
    intro a b hab
    constructor
    · rw [overlaps_eq_false_iff]
      omega
    · rw [overlaps_eq_false_iff]
      omega
  · intro r hr
    exact (h.1 r hr).1

/-- Witness for C6 on a concrete extraction. -/
theorem c6_regions_disjoint_witness :
    (Specs.mk 1 2).start_line ≤ (Specs.mk 1 2).end_line :=
  (c6_regions_disjoint ["specs:", "a", ""]).2 ⟨1, 2⟩ (by decide)

/-- Shifts the marker-based origin data of a region across one leading
line: relative indices into the suffix move up by one while the absolute
base index moves down by one. -/
theorem spec_data_shift (line : String) (rest : List String) (i : Nat)
    (r : Specs) {k : Nat} (hk : k < rest.length)
    (hend : r.end_line = (i + 1) + k) (hblank : rest.getD k "" = "")
    (horigin : ∃ m, m < k ∧ lineHasMarker (rest.getD m "") = true ∧
      r.start_line = (i + 1) + m + 1 ∧
      ∀ j, m < j → j < k → (rest.getD j "" ≠ "" ∧
        lineHasMarker (rest.getD j "") = false)) :
    ∃ k', k' < (line :: rest).length ∧ r.end_line = i + k' ∧
      (line :: rest).getD k' "" = "" ∧
      (∃ m, m < k' ∧ lineHasMarker ((line :: rest).getD m "") = true ∧
        r.start_line = i + m + 1 ∧
        ∀ j, m < j → j < k' → ((line :: rest).getD j "" ≠ "" ∧
          lineHasMarker ((line :: rest).getD j "") = false)) := by
  obtain ⟨m, hm, hmark, hstart, hcond⟩ := horigin
  refine ⟨k + 1, by simp only [List.length_cons]; omega, by omega,
    by simpa using hblank, m + 1, by omega, by simpa using hmark, by omega, ?_⟩
  intro j hj1 hj2
  rcases j with _ | j
  · omega
  · rw [List.getD_cons_succ]
    exact hcond j (by omega) (by omega)

/-- Forward characterization of the extractor's output: every emitted
region ends at a blank line at relative index `k`, and its start comes
either from the incoming pending start, with no blank or marker line
before `k`, or from a marker line at relative index `m < k` with no blank
or marker line strictly between `m` and `k`. -/
theorem fromLinesAux_mem_spec (lines : List String) :
    ∀ (i : Nat) (p : Option Nat) (r : Specs), r ∈ fromLinesAux lines i p →
      ∃ k, k < lines.length ∧ r.end_line = i + k ∧ lines.getD k "" = "" ∧
        ((p = some r.start_line ∧
           ∀ j, j < k → (lines.getD j "" ≠ "" ∧
             lineHasMarker (lines.getD j "") = false)) ∨
         (∃ m, m < k ∧ lineHasMarker (lines.getD m "") = true ∧
           r.start_line = i + m + 1 ∧
           ∀ j, m < j → j < k → (lines.getD j "" ≠ "" ∧
             lineHasMarker (lines.getD j "") = false))) := by
  induction lines with
  | nil => intro i p r hr; simp [fromLinesAux] at hr
  | cons line rest ih =>
    intro i p r hr
    by_cases hb : line = ""
    · subst hb
      have htail : ∀ r' : Specs, r' ∈ fromLinesAux rest (i + 1) none →
          ∃ k, k < ("" :: rest : List String).length ∧ r'.end_line = i + k ∧
            ("" :: rest : List String).getD k "" = "" ∧
            (∃ m, m < k ∧
              lineHasMarker (("" :: rest : List String).getD m "") = true ∧
              r'.start_line = i + m + 1 ∧
              ∀ j, m < j → j < k →
                (("" :: rest : List String).getD j "" ≠ "" ∧
                  lineHasMarker (("" :: rest : List String).getD j "") = false)) := by
        intro r' hr'
        obtain ⟨k, hk, hend, hblank, hdisj⟩ := ih (i + 1) none r' hr'
        rcases hdisj with ⟨hp, _⟩ | horigin
        · exact Option.noConfusion hp
        · exact spec_data_shift "" rest i r' hk hend hblank horigin
      rcases p with _ | s
      · rw [fromLinesAux_blank_none] at hr
        obtain ⟨k', h1, h2, h3, h4⟩ := htail r hr
        exact ⟨k', h1, h2, h3, Or.inr h4⟩
      · rw [fromLinesAux_blank_some] at hr
        rcases List.mem_cons.mp hr with rfl | hr
        · refine ⟨0, by simp, rfl, by simp, Or.inl ⟨rfl, ?_⟩⟩
          intro j hj
          exact absurd hj (Nat.not_lt_zero j)
        · obtain ⟨k', h1, h2, h3, h4⟩ := htail r hr
          exact ⟨k', h1, h2, h3, Or.inr h4⟩
    · by_cases hm : lineHasMarker line = true
      · rw [fromLinesAux_marker line rest i p hm] at hr
        obtain ⟨k, hk, hend, hblank, hdisj⟩ := ih (i + 1) (some (i + 1)) r hr
        rcases hdisj with ⟨hp, hcond⟩ | horigin
        · injection hp with hp
          refine ⟨k + 1, by simp only [List.length_cons]; omega, by omega,
            by simpa using hblank,
            Or.inr ⟨0, by omega, by simpa using hm, by omega, ?_⟩⟩
          intro j hj1 hj2
          rcases j with _ | j
          · omega
          · rw [List.getD_cons_succ]
            exact hcond j (by omega)
        · obtain ⟨k', h1, h2, h3, h4⟩ :=
            spec_data_shift line rest i r hk hend hblank horigin
          exact ⟨k', h1, h2, h3, Or.inr h4⟩
      · rw [fromLinesAux_plain line rest i p (by simpa using hm) hb] at hr
        obtain ⟨k, hk, hend, hblank, hdisj⟩ := ih (i + 1) p r hr
        rcases hdisj with ⟨hp, hcond⟩ | horigin
        · refine ⟨k + 1, by simp only [List.length_cons]; omega, by omega,
            by simpa using hblank, Or.inl ⟨hp, ?_⟩⟩
          intro j hj
          rcases j with _ | j
          · rw [List.getD_cons_zero]
            exact ⟨hb, by simpa using hm⟩
          · rw [List.getD_cons_succ]
            exact hcond j (by omega)
        · obtain ⟨k', h1, h2, h3, h4⟩ :=
            spec_data_shift line rest i r hk hend hblank horigin
          exact ⟨k', h1, h2, h3, Or.inr h4⟩

/-- If the first `k` lines are non-blank non-marker and line `k` is blank,
the pending start `s` is emitted as the region `(s, i + k)`. -/
theorem fromLinesAux_mem_pending (lines : List String) :
    ∀ (i s k : Nat), k < lines.length → lines.getD k "" = "" →
      (∀ j, j < k → lines.getD j "" ≠ "" ∧
        lineHasMarker (lines.getD j "") = false) →
      Specs.mk s (i + k) ∈ fromLinesAux lines i (some s) := by
  induction lines with
  | nil => intro i s k hk _ _; exact absurd hk (Nat.not_lt_zero k)
  | cons line rest ih =>
    intro i s k hk hblank hcond
    rcases k with _ | k
    · rw [List.getD_cons_zero] at hblank
      subst hblank
      rw [fromLinesAux_blank_some]
      exact List.mem_cons_self _ _
    · have h0 := hcond 0 (Nat.succ_pos k)
      rw [List.getD_cons_zero] at h0
      rw [fromLinesAux_plain line rest i (some s) h0.2 h0.1]
      have he : i + (k + 1) = (i + 1) + k := by omega
      rw [he]
      refine ih (i + 1) s k (by simpa using hk) (by simpa using hblank) ?_
      intro j hj
      have := hcond (j + 1) (by omega)
      rwa [List.getD_cons_succ] at this

/-- A marker at relative index `m` followed, strictly between `m` and `k`,
only by non-blank non-marker lines and then by a blank line at `k`, yields
the region `(i + m + 1, i + k)`, whatever the incoming pending start. -/
theorem fromLinesAux_mem_of (lines : List String) :
    ∀ (i : Nat) (p : Option Nat) (m k : Nat), m < k → k < lines.length →
      lineHasMarker (lines.getD m "") = true → lines.getD k "" = "" →
      (∀ j, m < j → j < k → lines.getD j "" ≠ "" ∧
        lineHasMarker (lines.getD j "") = false) →
      Specs.mk (i + m + 1) (i + k) ∈ fromLinesAux lines i p := by
  induction lines with
  | nil => intro i p m k _ hk _ _ _; exact absurd hk (Nat.not_lt_zero k)
  | cons line rest ih =>
    intro i p m k hmk hk hmark hblank hcond
    rcases m with _ | m
    · rw [List.getD_cons_zero] at hmark
      rw [fromLinesAux_marker line rest i p hmark]
      rcases k with _ | k
      · omega
      · have he : i + (k + 1) = (i + 1) + k := by omega
        have hs : i + 0 + 1 = i + 1 := by omega
        rw [he, hs]
        refine fromLinesAux_mem_pending rest (i + 1) (i + 1) k
          (by simpa using hk) (by simpa using hblank) ?_
        intro j hj
        have := hcond (j + 1) (by omega) (by omega)
        rwa [List.getD_cons_succ] at this
    · rcases k with _ | k
      · omega
      · have harith : i + (m + 1) + 1 = (i + 1) + m + 1 ∧
            i + (k + 1) = (i + 1) + k := by omega
        have hrest : ∀ p' : Option Nat,
            Specs.mk ((i + 1) + m + 1) ((i + 1) + k) ∈
              fromLinesAux rest (i + 1) p' := by
          intro p'
          refine ih (i + 1) p' m k (by omega) (by simpa using hk)
            (by simpa using hmark) (by simpa using hblank) ?_
          intro j hj1 hj2
          have := hcond (j + 1) (by omega) (by omega)
          rwa [List.getD_cons_succ] at this
        rw [harith.1, harith.2]
        by_cases hb : line = ""
        · subst hb
          rcases p with _ | s
          · rw [fromLinesAux_blank_none]
            exact hrest none
          · rw [fromLinesAux_blank_some]
            exact List.mem_cons_of_mem _ (hrest none)
        · by_cases hm : lineHasMarker line = true
          · rw [fromLinesAux_marker line rest i p hm]
            exact hrest (some (i + 1))
          · rw [fromLinesAux_plain line rest i p (by simpa using hm) hb]
            exact hrest p

/-- C1 (counterexample): the extractor run on `["specs:", ""]` produces the
zero-length region `(1, 1)`, yet the hunk range `(1, 2)` (a one-line hunk
with 1-indexed final start line 2) passes the overlap test against it, so a
zero-length region does overlap some hunk range. -/
theorem c1_counterexample :
    (AllSpecs.from_lines ["specs:", ""]).specs = [⟨1, 1⟩] ∧
    Specs.overlaps ⟨1, 1⟩ 1 2 = true ∧
    (AllSpecs.from_lines ["specs:", ""]).overlaps 1 2 = true := by
  decide

/-- C1 (amended): a zero-length spec region at position `s` fails the
overlap test exactly against the hunk ranges that start after `s` or end
before `s`; a hunk range with `hs ≤ s ≤ he` does overlap it. -/
theorem c1_zero_length_overlap (s hs he : Nat) :
    Specs.overlaps ⟨s, s⟩ hs he = true ↔ (hs ≤ s ∧ s ≤ he) := by
  exact overlaps_iff ⟨s, s⟩ hs he

/-- C3: for a well-formed region and hunk range that pass the overlap test,
`Specs::hunk_limits` returns exactly
`(max(region.start, hunk.start), min(region.end, hunk.end))`, which is
contained in the region's range and in the hunk's range, and whose start
does not exceed its end. -/
theorem c3_clip_containment (sp : Specs) (hs he : Nat)
    (hreg : sp.start_line ≤ sp.end_line) (hhunk : hs ≤ he)
    (hov : sp.overlaps hs he = true) :
    sp.hunk_limits hs he = (max sp.start_line hs, min sp.end_line he) ∧
    sp.start_line ≤ (sp.hunk_limits hs he).1 ∧
    (sp.hunk_limits hs he).2 ≤ sp.end_line ∧
    hs ≤ (sp.hunk_limits hs he).1 ∧
    (sp.hunk_limits hs he).2 ≤ he ∧
    (sp.hunk_limits hs he).1 ≤ (sp.hunk_limits hs he).2 := by
  rw [overlaps_iff] at hov
  unfold Specs.hunk_limits
  refine ⟨rfl, ?_, ?_, ?_, ?_, ?_⟩ <;> simp only [] <;> omega

/-- Witness for C3 at the region `(1, 3)` and hunk range `(2, 5)`. -/
theorem c3_clip_containment_witness :
    Specs.hunk_limits ⟨1, 3⟩ 2 5 = (max 1 2, min 3 5) ∧
    1 ≤ (Specs.hunk_limits ⟨1, 3⟩ 2 5).1 ∧
    (Specs.hunk_limits ⟨1, 3⟩ 2 5).2 ≤ 3 ∧
    2 ≤ (Specs.hunk_limits ⟨1, 3⟩ 2 5).1 ∧
    (Specs.hunk_limits ⟨1, 3⟩ 2 5).2 ≤ 5 ∧
    (Specs.hunk_limits ⟨1, 3⟩ 2 5).1 ≤ (Specs.hunk_limits ⟨1, 3⟩ 2 5).2 :=
  c3_clip_containment ⟨1, 3⟩ 2 5 (by decide) (by decide) (by decide)

/-- C4 (counterexample): on `["specs:", ""]` the hunk with final start
line 2 and one line has the clipped intersection `(1, 1)` - zero matched
lines - yet `run` still renders an output block for it (with the degenerate
line indicator `(2, 1)` and empty content). -/
theorem c4_counterexample :
    AllSpecs.hunk_limits (AllSpecs.from_lines ["specs:", ""]) 1 2 = (1, 1) ∧
    runEvents ["specs:", ""] [⟨2, 1, 0, 0⟩] = [⟨0, 1, 1, (2, 1), []⟩] := by
  decide

/-- C4 (amended): `run` skips a hunk exactly when it fails the overlap
test; a hunk that passes the overlap test is always rendered, even when its
clipped range contains zero matched lines. -/
theorem c4_skip_iff_no_overlap (lines : List String) (h : Hunk) :
    runEvents lines [h] = [] ↔
      (AllSpecs.from_lines lines).overlaps (h.finalStartLine - 1)
        (h.finalStartLine - 1 + h.linesInHunk) = false := by
  unfold runEvents
  simp only [sortByKey, insertSorted, List.filterMap]
  split
  · simp_all
  · simp_all

/-- C8 (counterexample): on `["specs:", "a", "b", ""]` with one hunk
covering lines 1-2 (zero-indexed), the clipped range is `(1, 3)` but the
printed line indicator is `(2, 3)`, not `(1 + 1, 3 + 1) = (2, 4)`: the end
bound is printed without adding 1. -/
theorem c8_counterexample :
    runEvents ["specs:", "a", "b", ""] [⟨2, 2, 5, 0⟩] =
      [⟨5, 1, 3, (2, 3), ["a", "b"]⟩] ∧
    ((2 : Nat), (3 : Nat)) ≠ (1 + 1, 3 + 1) := by
  decide

/-- C8 (amended): every rendered event prints the line indicator
`(clipStart + 1, clipEnd)`: 1 is added to the zero-indexed start of the
clipped range, while the exclusive end bound is printed as-is (it already
equals the 1-indexed inclusive end). -/
theorem c8_shown_range (lines : List String) (hunks : List Hunk) (ev : Event)
    (hmem : ev ∈ runEvents lines hunks) :
    ev.shownRange = (ev.clipStart + 1, ev.clipEnd) := by
  unfold runEvents at hmem
  rw [List.mem_filterMap] at hmem
  obtain ⟨h, -, hf⟩ := hmem
  dsimp only [] at hf
  split at hf
  · injection hf with hf
    subst hf
    rfl
  · exact Option.noConfusion hf

/-- Witness for C8 (amended) on a concrete rendered event. -/
theorem c8_shown_range_witness :
    (Event.mk 5 1 3 (2, 3) ["a", "b"]).shownRange = (1 + 1, 3) :=
  c8_shown_range ["specs:", "a", "b", ""] [⟨2, 2, 5, 0⟩] ⟨5, 1, 3, (2, 3), ["a", "b"]⟩
    (by decide)

/-- If no element of the region list passes the overlap test, the
`AllSpecs::hunk_limits` fold leaves its accumulator unchanged. -/
theorem foldl_limits_of_filter_nil (hs he : Nat) :
    ∀ (l : List Specs) (acc : Nat × Nat),
      l.filter (fun sp => sp.overlaps hs he) = [] →
      l.foldl
        (fun acc sp =>
          if sp.overlaps hs he then sp.hunk_limits hs he else acc) acc = acc
  | [], _, _ => rfl
  | sp :: rest, acc, h => by
    rw [List.filter_cons] at h
    split at h
    · exact absurd h (List.cons_ne_nil _ _)
    · rw [List.foldl_cons, if_neg (by simp_all)]
      exact foldl_limits_of_filter_nil hs he rest acc h

/-- The `AllSpecs::hunk_limits` fold computes the clip of the last region
in the list passing the overlap test, whatever the accumulator. -/
theorem foldl_limits_getLast (hs he : Nat) :
    ∀ (l : List Specs) (acc : Nat × Nat) (sp' : Specs),
      (l.filter (fun sp => sp.overlaps hs he)).getLast? = some sp' →
      l.foldl
        (fun acc sp =>
          if sp.overlaps hs he then sp.hunk_limits hs he else acc) acc
        = sp'.hunk_limits hs he
  | [], _, sp', h => by simp at h
  | sp :: rest, acc, sp', h => by
    rw [List.filter_cons] at h
    by_cases hov : sp.overlaps hs he = true
    · rw [if_pos hov] at h
      rcases hrest : rest.filter (fun sp => sp.overlaps hs he) with _ | ⟨b, l'⟩
      · rw [hrest, List.getLast?_singleton, Option.some_inj] at h
        subst h
        rw [List.foldl_cons, if_pos hov]
        exact foldl_limits_of_filter_nil hs he rest _ hrest
      · rw [hrest, List.getLast?_cons_cons] at h
        rw [List.foldl_cons, if_pos hov]
        exact foldl_limits_getLast hs he rest _ sp' (by rw [hrest]; exact h)
    · rw [if_neg hov] at h
      rw [List.foldl_cons, if_neg hov]
      exact foldl_limits_getLast hs he rest acc sp' h

/-- C2: when a hunk range overlaps several regions, `AllSpecs::hunk_limits`
reports the clip computed from the last region in file order that passes
the overlap test; the clips of earlier matching regions are overwritten. -/
theorem c2_last_overlap_wins (specs : List Specs) (hs he : Nat) (sp' : Specs)
    (h : (specs.filter (fun sp => sp.overlaps hs he)).getLast? = some sp') :
    AllSpecs.hunk_limits ⟨specs⟩ hs he = sp'.hunk_limits hs he :=
  foldl_limits_getLast hs he specs (0, 0) sp' h

/-- Witness for C2: two regions overlap the hunk range `(1, 5)` and the
reported clip is the one of the second region, `(4, 5)`. -/
theorem c2_last_overlap_wins_witness :
    (([⟨0, 2⟩, ⟨4, 6⟩] : List Specs).filter
        (fun sp => sp.overlaps 1 5)).getLast? = some ⟨4, 6⟩ ∧
    AllSpecs.hunk_limits ⟨[⟨0, 2⟩, ⟨4, 6⟩]⟩ 1 5 = Specs.hunk_limits ⟨4, 6⟩ 1 5 :=
  ⟨by decide, c2_last_overlap_wins [⟨0, 2⟩, ⟨4, 6⟩] 1 5 ⟨4, 6⟩ (by decide)⟩

/-- Membership in a stable insertion. -/
theorem mem_insertSorted [LinearOrder β] (key : α → β) (x a : α) :
    ∀ l : List α, a ∈ insertSorted key x l ↔ a = x ∨ a ∈ l
  | [] => by simp [insertSorted]
  | y :: ys => by
    simp only [insertSorted]
    split
    · exact List.mem_cons
    · rw [List.mem_cons, mem_insertSorted key x a ys, List.mem_cons]
      tauto

/-- Inserting into a list sorted on `key` keeps it sorted on `key`. -/
theorem pairwise_insertSorted [LinearOrder β] (key : α → β) (x : α) :
    ∀ l : List α, l.Pairwise (fun a b => key a ≤ key b) →
      (insertSorted key x l).Pairwise (fun a b => key a ≤ key b)
  | [], _ => by simp [insertSorted]
  | y :: ys, hl => by
    simp only [insertSorted]
    rcases List.pairwise_cons.mp hl with ⟨hy, hys⟩
    split
    · next hxy =>
      refine List.pairwise_cons.mpr ⟨?_, hl⟩
      intro b hb
      rcases List.mem_cons.mp hb with rfl | hb
      · exact hxy
      · exact le_trans hxy (hy b hb)
    · next hxy =>
      refine List.pairwise_cons.mpr ⟨?_, pairwise_insertSorted key x ys hys⟩
      intro b hb
      rcases (mem_insertSorted key x b ys).mp hb with rfl | hb
      · exact le_of_not_le hxy
      · exact hy b hb

/-- The stable sort of the model sorts on `key`. -/
theorem pairwise_sortByKey [LinearOrder β] (key : α → β) :
    ∀ l : List α, (sortByKey key l).Pairwise (fun a b => key a ≤ key b)
  | [] => by simp [sortByKey]
  | x :: xs => by
    simp only [sortByKey]
    exact pairwise_insertSorted key x (sortByKey key xs)
      (pairwise_sortByKey key xs)

/-- Sorting does not change the set of elements. -/
theorem mem_sortByKey [LinearOrder β] (key : α → β) (a : α) :
    ∀ l : List α, a ∈ sortByKey key l ↔ a ∈ l
  | [] => Iff.rfl
  | x :: xs => by
    simp only [sortByKey]
    rw [mem_insertSorted, mem_sortByKey key a xs, List.mem_cons]

/-- Stability of the insertion: if the list is lexicographically ordered on
`(key, idx)` and the inserted element has the smallest `idx`, the result is
again lexicographically ordered on `(key, idx)`. -/
theorem pairwise_lex_insertSorted [LinearOrder β] (key : α → β) (idx : α → Nat) (x : α) :
    ∀ l : List α,
      l.Pairwise (fun a b => key a < key b ∨ (key a = key b ∧ idx a < idx b)) →
      l.Pairwise (fun a b => key a ≤ key b) →
      (∀ y ∈ l, idx x < idx y) →
      (insertSorted key x l).Pairwise
        (fun a b => key a < key b ∨ (key a = key b ∧ idx a < idx b))
  | [], _, _, _ => by simp [insertSorted]
  | y :: ys, hlex, hle, hx => by
    simp only [insertSorted]
    rcases List.pairwise_cons.mp hlex with ⟨hylex, hyslex⟩
    rcases List.pairwise_cons.mp hle with ⟨hyle, hysle⟩
    split
    · next hxy =>
      refine List.pairwise_cons.mpr ⟨?_, hlex⟩
      intro b hb
      have hkb : key x ≤ key b := by
        rcases List.mem_cons.mp hb with rfl | hb
        · exact hxy
        · exact le_trans hxy (hyle b hb)
      rcases lt_or_eq_of_le hkb with h | h
      · exact Or.inl h
      · exact Or.inr ⟨h, hx b hb⟩
    · next hxy =>
      refine List.pairwise_cons.mpr
        ⟨?_, pairwise_lex_insertSorted key idx x ys hyslex hysle
          (fun z hz => hx z (List.mem_cons_of_mem y hz))⟩
      intro b hb
      rcases (mem_insertSorted key x b ys).mp hb with rfl | hb
      · exact Or.inl (lt_of_not_le hxy)
      · exact hylex b hb

/-- Stability of the sort: on a list with strictly increasing `idx`, the
sort on `key` yields a list lexicographically ordered on `(key, idx)` -
ties in `key` keep the original `idx` order. -/
theorem pairwise_lex_sortByKey [LinearOrder β] (key : α → β) (idx : α → Nat) :
    ∀ l : List α, l.Pairwise (fun a b => idx a < idx b) →
      (sortByKey key l).Pairwise
        (fun a b => key a < key b ∨ (key a = key b ∧ idx a < idx b))
  | [], _ => by simp [sortByKey]
  | x :: xs, h => by
    simp only [sortByKey]
    rcases List.pairwise_cons.mp h with ⟨hx, hxs⟩
    exact pairwise_lex_insertSorted key idx x (sortByKey key xs)
      (pairwise_lex_sortByKey key idx xs hxs)
      (pairwise_sortByKey key xs)
      (fun y hy => hx y ((mem_sortByKey key y xs).mp hy))

/-- Insertion commutes with mapping when the key factors through the map. -/
theorem insertSorted_map [LinearOrder γ] (key : β → γ) (g : α → β) (x : α) :
    ∀ l : List α,
      insertSorted key (g x) (l.map g) =
        (insertSorted (fun a => key (g a)) x l).map g
  | [] => rfl
  | y :: ys => by
    simp only [List.map_cons, insertSorted]
    by_cases h : key (g x) ≤ key (g y)
    · rw [if_pos h, if_pos h, List.map_cons, List.map_cons]
    · rw [if_neg h, if_neg h, List.map_cons, insertSorted_map key g x ys]

/-- Sorting commutes with mapping when the key factors through the map. -/
theorem sortByKey_map [LinearOrder γ] (key : β → γ) (g : α → β) :
    ∀ l : List α,
      sortByKey key (l.map g) = (sortByKey (fun a => key (g a)) l).map g
  | [] => rfl
  | x :: xs => by
    simp only [List.map_cons, sortByKey]
    rw [sortByKey_map key g xs, insertSorted_map]

/-- Indices of `enumFrom` are bounded below by the start index. -/
theorem le_fst_of_mem_enumFrom {α : Type _} {p : Nat × α} :
    ∀ (l : List α) (n : Nat), p ∈ List.enumFrom n l → n ≤ p.1
  | [], _, h => absurd h (List.not_mem_nil p)
  | x :: xs, n, h => by
    rw [List.enumFrom_cons] at h
    rcases List.mem_cons.mp h with rfl | h
    · exact Nat.le_refl n
    · have := le_fst_of_mem_enumFrom xs (n + 1) h
      omega

/-- Indices of `enumFrom` are strictly increasing. -/
theorem pairwise_fst_enumFrom (l : List α) :
    ∀ n : Nat, (List.enumFrom n l).Pairwise (fun a b => a.1 < b.1) := by
  induction l with
  | nil => intro n; simp
  | cons x xs ih =>
    intro n
    rw [List.enumFrom_cons]
    refine List.pairwise_cons.mpr ⟨fun p hp => ?_, ih (n + 1)⟩
    have := le_fst_of_mem_enumFrom xs (n + 1) hp
    omega

/-- `filterMap` turns a pairwise relation of the input into a pairwise
relation of the output, along the `some` results. -/
theorem pairwise_filterMap_of_pairwise (f : α → Option β)
    (R : α → α → Prop) (S : β → β → Prop)
    (hRS : ∀ a b x y, R a b → f a = some x → f b = some y → S x y) :
    ∀ l : List α, l.Pairwise R → (l.filterMap f).Pairwise S
  | [], _ => by simp
  | a :: l, h => by
    rcases List.pairwise_cons.mp h with ⟨ha, hl⟩
    rcases hf : f a with _ | x
    · rw [List.filterMap_cons_none hf]
      exact pairwise_filterMap_of_pairwise f R S hRS l hl
    · rw [List.filterMap_cons_some hf]
      refine List.pairwise_cons.mpr
        ⟨?_, pairwise_filterMap_of_pairwise f R S hRS l hl⟩
      intro y hy
      rcases List.mem_filterMap.mp hy with ⟨b, hb, hfb⟩
      exact hRS a b x y (ha b hb) hf hfb

/-- C5 (counterexample): two hunks with equal timestamps (seconds) but
different timezone offsets are reordered by offset, not kept in arrival
order.  On `["specs:", "a", "b", ""]` the first-arriving hunk (line 1,
offset +60) and the second-arriving hunk (line 2, offset 0) both have
timestamp 0, yet `run` prints the second-arriving hunk's event first,
because `git2::Time`'s ordering compares the offset after the seconds. -/
theorem c5_counterexample :
    runEvents ["specs:", "a", "b", ""]
        [⟨2, 1, 0, 60⟩, ⟨3, 1, 0, 0⟩] =
      [⟨0, 2, 3, (3, 3), ["b"]⟩, ⟨0, 1, 2, (2, 2), ["a"]⟩] ∧
    (Event.mk 0 2 3 (3, 3) ["b"]).seconds =
      (Event.mk 0 1 2 (2, 2) ["a"]).seconds := by
  decide

/-- C5 (amended): rendered events appear in non-decreasing timestamp
order, but ties in timestamp only preserve the original arrival order of
the hunks when their timezone offsets are also equal: the sort key is
`git2::Time`'s ordering, the lexicographic pair (seconds, offset), so the
sorted arrival-indexed hunk list is ordered by seconds first, then offset,
and only hunks tied in both keep their arrival order. -/
theorem c5_order_amended (lines : List String) (hunks : List Hunk) :
    (runEvents lines hunks).Pairwise (fun a b => a.seconds ≤ b.seconds) ∧
    sortByKey Hunk.timeKey hunks =
      (sortByKey (fun p => p.2.timeKey) hunks.enum).map Prod.snd ∧
    (sortByKey (fun p : Nat × Hunk => p.2.timeKey) hunks.enum).Pairwise
      (fun a b =>
        a.2.seconds < b.2.seconds ∨
        (a.2.seconds = b.2.seconds ∧
          a.2.offsetMinutes < b.2.offsetMinutes) ∨
        (a.2.seconds = b.2.seconds ∧
          a.2.offsetMinutes = b.2.offsetMinutes ∧ a.1 < b.1)) := by
  refine ⟨?_, ?_, ?_⟩
  · unfold runEvents
    refine pairwise_filterMap_of_pairwise _
      (fun a b : Hunk => a.timeKey ≤ b.timeKey) _ ?_ _
      (pairwise_sortByKey Hunk.timeKey hunks)
    intro a b x y hab hfa hfb
    dsimp only [] at hfa hfb
    split at hfa
    · injection hfa with hfa
      split at hfb
      · injection hfb with hfb
        subst hfa
        subst hfb
        simp only [Hunk.timeKey] at hab
        rw [Prod.Lex.le_iff] at hab
        rcases hab with h | ⟨h1, h2⟩
        · exact le_of_lt h
        · exact le_of_eq h1
      · exact Option.noConfusion hfb
    · exact Option.noConfusion hfa
  · conv_lhs => rw [← List.enum_map_snd hunks]
    exact sortByKey_map Hunk.timeKey Prod.snd hunks.enum
  · refine (pairwise_lex_sortByKey (fun p : Nat × Hunk => p.2.timeKey)
      Prod.fst hunks.enum (pairwise_fst_enumFrom hunks 0)).imp ?_
    intro a b hab
    rcases hab with h | ⟨h1, h2⟩
    · simp only [Hunk.timeKey] at h
      rw [Prod.Lex.lt_iff] at h
      rcases h with h | ⟨h1, h2⟩
      · exact Or.inl h
      · exact Or.inr (Or.inl ⟨h1, h2⟩)
    · simp only [Hunk.timeKey] at h1
      rw [toLex_inj, Prod.mk.injEq] at h1
      exact Or.inr (Or.inr ⟨h1.1, h1.2, h2⟩)

/-- C7: the relative-time label follows mutually exclusive tiers evaluated
in priority order with truncating integer division: whole days if positive,
else whole hours if positive, else whole minutes if positive, else
"just now"; in particular 25 hours and exactly 24 hours report in days,
23 hours 59 minutes reports in hours, 90 minutes reports "1 hours ago",
and 0 seconds reports "just now". -/
theorem c7_time_tiers :
    (∀ e : Int, 0 ≤ e →
      (86400 ≤ e → time_passed e = toString (e.tdiv 86400) ++ " days ago") ∧
      (3600 ≤ e → e < 86400 →
        time_passed e = toString (e.tdiv 3600) ++ " hours ago") ∧
      (60 ≤ e → e < 3600 →
        time_passed e = toString (e.tdiv 60) ++ " minutes ago") ∧
      (e < 60 → time_passed e = "just now")) ∧
    time_passed (25 * 3600) = "1 days ago" ∧
    time_passed (24 * 3600) = "1 days ago" ∧
    time_passed (23 * 3600 + 59 * 60) = "23 hours ago" ∧
    time_passed (90 * 60) = "1 hours ago" ∧
    time_passed 0 = "just now" := by
  refine ⟨?_, by decide, by decide, by decide, by decide, by decide⟩
  intro e he
  have hd : e.tdiv 86400 = e / 86400 := Int.tdiv_eq_ediv he (by decide)
  have hh : e.tdiv 3600 = e / 3600 := Int.tdiv_eq_ediv he (by decide)
  have hm : e.tdiv 60 = e / 60 := Int.tdiv_eq_ediv he (by decide)
  refine ⟨?_, ?_, ?_, ?_⟩
  · intro h1
    have : e.tdiv 86400 > 0 := by rw [hd]; omega
    simp only [time_passed, if_pos this]
  · intro h1 h2
    have hdz : ¬ e.tdiv 86400 > 0 := by rw [hd]; omega
    have : e.tdiv 3600 > 0 := by rw [hh]; omega
    simp only [time_passed, if_neg hdz, if_pos this]
  · intro h1 h2
    have hdz : ¬ e.tdiv 86400 > 0 := by rw [hd]; omega
    have hhz : ¬ e.tdiv 3600 > 0 := by rw [hh]; omega
    have : e.tdiv 60 > 0 := by rw [hm]; omega
    simp only [time_passed, if_neg hdz, if_neg hhz, if_pos this]
  · intro h1
    have hdz : ¬ e.tdiv 86400 > 0 := by rw [hd]; omega
    have hhz : ¬ e.tdiv 3600 > 0 := by rw [hh]; omega
    have hmz : ¬ e.tdiv 60 > 0 := by rw [hm]; omega
    simp only [time_passed, if_neg hdz, if_neg hhz, if_neg hmz]

/-- Witness for C7 at two elapsed days. -/
theorem c7_time_tiers_witness :
    time_passed 172800 = toString ((172800 : Int).tdiv 86400) ++ " days ago" :=
  (c7_time_tiers.1 172800 (by decide)).1 (by decide)

/-- C9: a marker line with no blank line after it before end of file never
contributes a region: no extracted region starts at the line after it. -/
theorem c9_unterminated_discarded (lines : List String) (m : Nat)
    (hm : m < lines.length)
    (hmark : lineHasMarker (lines.getD m "") = true)
    (hnoblank : ∀ j, m < j → j < lines.length → lines.getD j "" ≠ "") :
    ∀ r ∈ (AllSpecs.from_lines lines).specs, r.start_line ≠ m + 1 := by
  intro r hr heq
  obtain ⟨k, hk, hend, hblank, hdisj⟩ :=
    fromLinesAux_mem_spec lines 0 none r hr
  rcases hdisj with ⟨hp, _⟩ | ⟨m', hm', hmark', hstart, hcond⟩
  · exact Option.noConfusion hp
  · have hmm : m' = m := by omega
    subst hmm
    exact hnoblank k (by omega) hk hblank

/-- Witness for C9: in `["specs:", "", "specs:", "a"]` the second marker
(index 2) is never terminated by a blank line, and the single extracted
region `(1, 1)` indeed does not start at line 3. -/
theorem c9_unterminated_discarded_witness :
    (Specs.mk 1 1).start_line ≠ 2 + 1 :=
  c9_unterminated_discarded ["specs:", "", "specs:", "a"] 2 (by decide)
    (by decide)
    (by
      intro j h1 h2
      simp only [List.length_cons, List.length_nil] at h2
      have h3 : j = 3 := by omega
      subst h3
      decide)
    ⟨1, 1⟩ (by decide)

/-- C10: a second marker line occurring after a first marker and before
any blank line resets the pending region: with markers at `m1 < m2`, the
next blank line at `b`, no blank line strictly between `m1` and `b`, and
no further marker strictly between `m2` and `b`, the extractor emits the
region `(m2 + 1, b)`, emits no region starting at `m1 + 1`, and no
extracted region covers any line strictly between the two markers. -/
theorem c10_marker_resets (lines : List String) (m1 m2 b : Nat)
    (h12 : m1 < m2) (h2b : m2 < b) (hb : b < lines.length)
    (hmark1 : lineHasMarker (lines.getD m1 "") = true)
    (hmark2 : lineHasMarker (lines.getD m2 "") = true)
    (hblank : lines.getD b "" = "")
    (hnoblank : ∀ j, m1 < j → j < b → lines.getD j "" ≠ "")
    (hnomark : ∀ j, m2 < j → j < b → lineHasMarker (lines.getD j "") = false) :
    (Specs.mk (m2 + 1) b ∈ (AllSpecs.from_lines lines).specs) ∧
    (∀ r ∈ (AllSpecs.from_lines lines).specs, r.start_line ≠ m1 + 1) ∧
    (∀ r ∈ (AllSpecs.from_lines lines).specs, ∀ j, m1 < j → j < m2 →
      ¬(r.start_line ≤ j ∧ j < r.end_line)) := by
  refine ⟨?_, ?_, ?_⟩
  · have hmem := fromLinesAux_mem_of lines 0 none m2 b h2b hb hmark2 hblank
      (fun j hj1 hj2 => ⟨hnoblank j (by omega) hj2, hnomark j hj1 hj2⟩)
    have e1 : 0 + m2 + 1 = m2 + 1 := by omega
    have e2 : 0 + b = b := by omega
    rw [e1, e2] at hmem
    exact hmem
  · intro r hr heq
    obtain ⟨k, hk, hend, hblank', hdisj⟩ :=
      fromLinesAux_mem_spec lines 0 none r hr
    rcases hdisj with ⟨hp, _⟩ | ⟨m', hm', hmark', hstart, hcond⟩
    · exact Option.noConfusion hp
    · have hmm : m' = m1 := by omega
      subst hmm
      rcases le_or_lt k m2 with hkm | hkm
      · exact hnoblank k (by omega) (by omega) hblank'
      · exact absurd hmark2 (by simpa using (hcond m2 (by omega) (by omega)).2)
  · intro r hr j hj1 hj2 hcover
    obtain ⟨k, hk, hend, hblank', hdisj⟩ :=
      fromLinesAux_mem_spec lines 0 none r hr
    rcases hdisj with ⟨hp, _⟩ | ⟨m', hm', hmark', hstart, hcond⟩
    · exact Option.noConfusion hp
    · have hkb : b ≤ k := by
        by_contra hlt
        exact hnoblank k (by omega) (by omega) hblank'
      rcases le_or_lt m2 m' with hmm | hmm
      · omega
      · exact absurd hmark2 (by simpa using (hcond m2 (by omega) (by omega)).2)

/-- Witness for C10 on `["specs:", "a", "specs:", "b", ""]`: the single
extracted region is `(3, 4)`; it does not start at line 1 and does not
cover line 1 (the stretch between the two markers). -/
theorem c10_marker_resets_witness :
    (Specs.mk 3 4 ∈
      (AllSpecs.from_lines ["specs:", "a", "specs:", "b", ""]).specs) ∧
    (Specs.mk 3 4).start_line ≠ 0 + 1 ∧
    ¬((Specs.mk 3 4).start_line ≤ 1 ∧ 1 < (Specs.mk 3 4).end_line) := by
  have h := c10_marker_resets ["specs:", "a", "specs:", "b", ""] 0 2 4
    (by decide) (by decide) (by decide) (by decide) (by decide) (by decide)
    (by
      intro j h1 h2
      interval_cases j <;> decide)
    (by
      intro j h1 h2
      have h3 : j = 3 := by omega
      subst h3
      decide)
  exact ⟨h.1, h.2.1 ⟨3, 4⟩ (by decide), h.2.2 ⟨3, 4⟩ (by decide) 1
    (by decide) (by decide)⟩

end Depr
